import Mathlib

/-!
# Verification of the cache store (`src/pkg/utils/cache.go`)

A shallow embedding of the in-memory state store of the CircleCI YAML
language server: five typed stores (`FileCache`, `OrbCache`, `DockerCache`,
`ContextCache`, `ProjectCache`), the `Cache` aggregate with its host-data
teardown, and the orb cache path resolver `GetOrbCacheFSPath`.

Modelling choices, uniform throughout:

* A Go `map[string]*V` is embedded as an association list
  `List (String × V)`; `mapLookup`, `mapInsert` and `mapDelete` embed the
  indexing, assignment and `delete` built-ins.  A `nil` pointer result of
  a map read is `Option.none`.
* Every store method runs entirely under the store's single `sync.Mutex`,
  so each method is embedded as one atomic state-passing function; the
  mutex itself carries no data and is not represented.
* A method of the source that dereferences a potentially-`nil` pointer is
  embedded as an `Option`-returning function, `none` marking the
  nil-dereference fault.
* The filesystem seen by `RemoveOrbFiles` is a list of existing paths;
  `os.Stat` succeeding is membership, `os.Remove` is removal.
-/

set_option autoImplicit false

namespace CacheSpec

/-- Embedding of reading a Go `map[string]*V`: the value stored under the
first entry for key `k`, or `none` (a `nil` pointer) when absent. -/
def mapLookup {V : Type} : List (String × V) → String → Option V
  | [], _ => none
  | (k', v) :: rest, k => if k' = k then some v else mapLookup rest k

/-- Embedding of a Go map assignment `m[k] = v`: replaces the entry for
`k` in place if one exists, otherwise adds a new entry. -/
def mapInsert {V : Type} : List (String × V) → String → V → List (String × V)
  | [], k, v => [(k, v)]
  | (k', v') :: rest, k, v =>
      if k' = k then (k, v) :: rest else (k', v') :: mapInsert rest k v

/-- Embedding of the Go built-in `delete(m, k)`: removes the entries for
key `k`; a no-op when `k` is absent. -/
def mapDelete {V : Type} : List (String × V) → String → List (String × V)
  | [], _ => []
  | (k', v') :: rest, k =>
      if k' = k then mapDelete rest k else (k', v') :: mapDelete rest k

@[simp] theorem mapLookup_nil {V : Type} (k : String) :
    mapLookup ([] : List (String × V)) k = none := rfl

@[simp] theorem mapLookup_cons {V : Type} (k' k : String) (v : V)
    (rest : List (String × V)) :
    mapLookup ((k', v) :: rest) k =
      if k' = k then some v else mapLookup rest k := rfl

theorem mapLookup_mapInsert_self {V : Type} (m : List (String × V))
    (k : String) (v : V) : mapLookup (mapInsert m k v) k = some v := by
  induction m with
  | nil => simp [mapInsert]
  | cons p rest ih =>
      obtain ⟨k', v'⟩ := p
      by_cases h : k' = k
      · simp [mapInsert, h]
      · simp [mapInsert, h, ih]

theorem mapLookup_mapInsert_ne {V : Type} (m : List (String × V))
    (k k' : String) (v : V) (h : k' ≠ k) :
    mapLookup (mapInsert m k v) k' = mapLookup m k' := by
  have hne : ¬ k = k' := fun hh => h hh.symm
  induction m with
  | nil => simp [mapInsert, hne]
  | cons p rest ih =>
      obtain ⟨k₀, v₀⟩ := p
      by_cases h₀ : k₀ = k
      · subst h₀
        simp [mapInsert, hne]
      · by_cases h₁ : k₀ = k'
        · simp [mapInsert, h₀, h₁, h]
        · simp [mapInsert, h₀, h₁, ih]

theorem mapLookup_mapDelete_self {V : Type} (m : List (String × V))
    (k : String) : mapLookup (mapDelete m k) k = none := by
  induction m with
  | nil => simp [mapDelete]
  | cons p rest ih =>
      obtain ⟨k', v'⟩ := p
      by_cases h : k' = k
      · simp [mapDelete, h, ih]
      · simp [mapDelete, h, ih]

theorem mapLookup_mapDelete_ne {V : Type} (m : List (String × V))
    (k k' : String) (h : k' ≠ k) :
    mapLookup (mapDelete m k) k' = mapLookup m k' := by
  have hne : ¬ k = k' := fun hh => h hh.symm
  induction m with
  | nil => simp [mapDelete]
  | cons p rest ih =>
      obtain ⟨k₀, v₀⟩ := p
      by_cases h₀ : k₀ = k
      · subst h₀
        simp [mapDelete, hne, ih]
      · by_cases h₁ : k₀ = k'
        · simp [mapDelete, h₀, h₁, h, ih]
        · simp [mapDelete, h₀, h₁, ih]

theorem mapDelete_of_lookup_none {V : Type} (m : List (String × V))
    (k : String) (h : mapLookup m k = none) : mapDelete m k = m := by
  induction m with
  | nil => simp [mapDelete]
  | cons p rest ih =>
      obtain ⟨k', v'⟩ := p
      by_cases hk : k' = k
      · simp [hk] at h
      · simp [hk] at h
        simp [mapDelete, hk, ih h]

theorem mapInsert_of_lookup_eq {V : Type} (m : List (String × V))
    (k : String) (v : V) (h : mapLookup m k = some v) :
    mapInsert m k v = m := by
  induction m with
  | nil => simp at h
  | cons p rest ih =>
      obtain ⟨k', v'⟩ := p
      by_cases hk : k' = k
      · subst hk
        simp at h
        simp [mapInsert, h]
      · simp [hk] at h
        simp [mapInsert, hk, ih h]

theorem mem_of_mapLookup_eq_some {V : Type} (m : List (String × V))
    (k : String) (v : V) (h : mapLookup m k = some v) : (k, v) ∈ m := by
  induction m with
  | nil => simp at h
  | cons p rest ih =>
      obtain ⟨k', v'⟩ := p
      by_cases hk : k' = k
      · subst hk
        simp at h
        simp [h]
      · simp [hk] at h
        exact List.mem_cons_of_mem _ (ih h)

theorem mem_mapDelete {V : Type} (m : List (String × V)) (k k' : String)
    (v : V) (h : (k', v) ∈ mapDelete m k) : (k', v) ∈ m ∧ k' ≠ k := by
  induction m with
  | nil => simp [mapDelete] at h
  | cons p rest ih =>
      obtain ⟨k₀, v₀⟩ := p
      by_cases h₀ : k₀ = k
      · simp [mapDelete, h₀] at h
        obtain ⟨h₁, h₂⟩ := ih h
        exact ⟨List.mem_cons_of_mem _ h₁, h₂⟩
      · simp [mapDelete, h₀] at h
        cases h with
        | inl h =>
            refine ⟨?_, ?_⟩
            · simp [h]
            · rw [h.1]
              exact h₀
        | inr h =>
            obtain ⟨h₁, h₂⟩ := ih h
            exact ⟨List.mem_cons_of_mem _ h₁, h₂⟩

/-! ## Value record types -/

/-- Embedding of `protocol.TextDocumentItem` (the document value stored by
`FileCache`): URI, language id, version and text content. -/
structure TextDocumentItem where
  URI : String
  LanguageID : String
  Version : Int
  Text : String
deriving DecidableEq, Repr

/-- Modelled from the spec: `ast.OrbParsedAttributes` is not under `src/`;
the spec treats it as opaque parsed-attribute data populated after a parse
pass, so it is embedded as an opaque payload. -/
structure OrbParsedAttributes where
  data : String
deriving DecidableEq, Repr

/-- Modelled from the spec: the remote-origin metadata of an orb record is
not under `src/`; per the spec it includes a local file path where the orb
definition was materialized, the only field `cache.go` reads
(`orb.RemoteInfo.FilePath`). -/
structure RemoteOrbInfo where
  FilePath : String
deriving DecidableEq, Repr

/-- Modelled from the spec: `ast.OrbInfo` is not under `src/`; per the spec
an orb record holds remote-origin metadata and parsed-attribute data, the
two fields `cache.go` accesses. -/
structure OrbInfo where
  RemoteInfo : RemoteOrbInfo
  OrbParsedAttributes : OrbParsedAttributes
deriving DecidableEq, Repr

/-- Embedding of `CachedDockerImage`: a checked flag and an existence flag. -/
structure CachedDockerImage where
  Checked : Bool
  Exists : Bool
deriving DecidableEq, Repr

/-- Modelled from the spec: the `Context` record type is not under `src/`;
per the spec it is identified by a context name and holds an ordered list
of environment-variable names (`cache.go` reads `ctx.Name` and
`ctx.envVariables`). -/
structure Context where
  Name : String
  envVariables : List String
deriving DecidableEq, Repr

/-- Modelled from the spec: the `Project` record type is not under `src/`;
per the spec it is identified by a project slug and holds an ordered list
of environment-variable names (`cache.go` reads `project.Slug` and
`project.EnvVariables`). -/
structure Project where
  Slug : String
  EnvVariables : List String
deriving DecidableEq, Repr

/-- Modelled from the spec: `FindInArray` is not under `src/`; per the spec
it is a linear scan with case-sensitive exact match, used by
`AddEnvVariableToContext`/`AddEnvVariableToProject` only through the test
`FindInArray arr x < 0`, i.e. it returns the index of the first match and a
negative value when there is none. -/
def FindInArray (arr : List String) (x : String) : Int :=
  match arr with
  | [] => -1
  | a :: rest =>
      if a = x then 0
      else
        let r := FindInArray rest x
        if r < 0 then -1 else r + 1

/-! ## The five typed stores

Each Go store struct holds its backing map and a `*sync.Mutex`; the mutex
carries no data and every method is a single critical section, so a store
is embedded as its backing map alone and each method as one atomic
function. -/

/-- Embedding of `FileCache` (the store's backing map `fileCache`). -/
structure FileCache where
  fileCache : List (String × TextDocumentItem)
deriving DecidableEq, Repr

/-- Embedding of `FileCache.SetFile`: stores the document under its URI and
returns the stored value (`*file`, a copy of the record). -/
def FileCache.SetFile (c : FileCache) (file : TextDocumentItem) :
    TextDocumentItem × FileCache :=
  (file, ⟨mapInsert c.fileCache file.URI file⟩)

/-- Embedding of `FileCache.GetFile`: map read; `none` is the `nil`
pointer returned on a missing URI. -/
def FileCache.GetFile (c : FileCache) (uri : String) : Option TextDocumentItem :=
  mapLookup c.fileCache uri

/-- Embedding of `FileCache.RemoveFile`: `delete(c.fileCache, uri)`. -/
def FileCache.RemoveFile (c : FileCache) (uri : String) : FileCache :=
  ⟨mapDelete c.fileCache uri⟩

/-- Embedding of `OrbCache` (the store's backing map `orbsCache`). -/
structure OrbCache where
  orbsCache : List (String × OrbInfo)
deriving DecidableEq, Repr

/-- Embedding of `OrbCache.HasOrb`: the comma-ok existence test. -/
def OrbCache.HasOrb (c : OrbCache) (orbID : String) : Bool :=
  (mapLookup c.orbsCache orbID).isSome

/-- Embedding of `OrbCache.SetOrb`: stores the record under `orbID` and
returns the stored value. -/
def OrbCache.SetOrb (c : OrbCache) (orb : OrbInfo) (orbID : String) :
    OrbInfo × OrbCache :=
  (orb, ⟨mapInsert c.orbsCache orbID orb⟩)

/-- Embedding of `OrbCache.UpdateOrbParsedAttributes`: the source writes
`c.orbsCache[orbID].OrbParsedAttributes = parsedOrbAttributes`, a field
assignment through the pointer returned by the map read; on a missing key
that pointer is `nil` and the assignment faults, embedded as `none`. -/
def OrbCache.UpdateOrbParsedAttributes (c : OrbCache) (orbID : String)
    (parsedOrbAttributes : OrbParsedAttributes) :
    Option (OrbParsedAttributes × OrbCache) :=
  match mapLookup c.orbsCache orbID with
  | none => none
  | some orb =>
      some (parsedOrbAttributes,
        ⟨mapInsert c.orbsCache orbID
          { orb with OrbParsedAttributes := parsedOrbAttributes }⟩)

/-- Embedding of `OrbCache.GetOrb`: map read, `none` on a missing key. -/
def OrbCache.GetOrb (c : OrbCache) (orbID : String) : Option OrbInfo :=
  mapLookup c.orbsCache orbID

/-- Embedding of `OrbCache.RemoveOrb`: `delete(c.orbsCache, orbID)`. -/
def OrbCache.RemoveOrb (c : OrbCache) (orbID : String) : OrbCache :=
  ⟨mapDelete c.orbsCache orbID⟩

/-- Embedding of `OrbCache.RemoveOrbs`: `for k := range c.orbsCache {
delete(c.orbsCache, k) }` — deletes every key of the map from the map. -/
def OrbCache.RemoveOrbs (c : OrbCache) : OrbCache :=
  ⟨(c.orbsCache.map Prod.fst).foldl mapDelete c.orbsCache⟩

/-- Embedding of `DockerCache` (the store's backing map `dockerCache`). -/
structure DockerCache where
  dockerCache : List (String × CachedDockerImage)
deriving DecidableEq, Repr

/-- Embedding of `DockerCache.Add`: stores `{Checked: true, Exists:
exists}` under `name` and returns the freshly stored entry read back from
the map. -/
def DockerCache.Add (c : DockerCache) (name : String) (hExists : Bool) :
    Option CachedDockerImage × DockerCache :=
  let c' : DockerCache :=
    ⟨mapInsert c.dockerCache name ⟨true, hExists⟩⟩
  (mapLookup c'.dockerCache name, c')

/-- Embedding of `DockerCache.Get`: map read, `none` on a missing key. -/
def DockerCache.Get (c : DockerCache) (name : String) :
    Option CachedDockerImage :=
  mapLookup c.dockerCache name

/-- Embedding of `DockerCache.Remove`: `delete(c.dockerCache, name)`. -/
def DockerCache.Remove (c : DockerCache) (name : String) : DockerCache :=
  ⟨mapDelete c.dockerCache name⟩

/-- Embedding of `ContextCache` (the store's backing map `contextCache`). -/
structure ContextCache where
  contextCache : List (String × Context)
deriving DecidableEq, Repr

/-- Embedding of `ContextCache.SetContext`: stores the record under its
`Name` and returns it. -/
def ContextCache.SetContext (c : ContextCache) (ctx : Context) :
    Context × ContextCache :=
  (ctx, ⟨mapInsert c.contextCache ctx.Name ctx⟩)

/-- Embedding of `ContextCache.GetContext`. -/
def ContextCache.GetContext (c : ContextCache) (name : String) :
    Option Context :=
  mapLookup c.contextCache name

/-- Embedding of `ContextCache.RemoveContext`. -/
def ContextCache.RemoveContext (c : ContextCache) (name : String) :
    ContextCache :=
  ⟨mapDelete c.contextCache name⟩

/-- Embedding of `ContextCache.AddEnvVariableToContext`: reads the record
pointer for `name` (`nil` — embedded as `none` — when absent, in which
case `ctx.envVariables` faults), appends `envVariable` to its variable
list only when `FindInArray` does not find it, and writes the record
back. -/
def ContextCache.AddEnvVariableToContext (c : ContextCache)
    (name envVariable : String) : Option ContextCache :=
  match mapLookup c.contextCache name with
  | none => none
  | some ctx =>
      let ctx' :=
        if FindInArray ctx.envVariables envVariable < 0 then
          { ctx with envVariables := ctx.envVariables ++ [envVariable] }
        else ctx
      some ⟨mapInsert c.contextCache name ctx'⟩

/-- Embedding of `ProjectCache` (the store's backing map `projectCache`). -/
structure ProjectCache where
  projectCache : List (String × Project)
deriving DecidableEq, Repr

/-- Embedding of `ProjectCache.SetProject`: stores the record under its
`Slug` and returns it. -/
def ProjectCache.SetProject (c : ProjectCache) (project : Project) :
    Project × ProjectCache :=
  (project, ⟨mapInsert c.projectCache project.Slug project⟩)

/-- Embedding of `ProjectCache.GetProject`. -/
def ProjectCache.GetProject (c : ProjectCache) (name : String) :
    Option Project :=
  mapLookup c.projectCache name

/-- Embedding of `ProjectCache.RemoveProject`. -/
def ProjectCache.RemoveProject (c : ProjectCache) (name : String) :
    ProjectCache :=
  ⟨mapDelete c.projectCache name⟩

/-- Embedding of `ProjectCache.AddEnvVariableToProject`: same shape as
`AddEnvVariableToContext`, on `Project.EnvVariables`. -/
def ProjectCache.AddEnvVariableToProject (c : ProjectCache)
    (name envVariable : String) : Option ProjectCache :=
  match mapLookup c.projectCache name with
  | none => none
  | some project =>
      let project' :=
        if FindInArray project.EnvVariables envVariable < 0 then
          { project with EnvVariables := project.EnvVariables ++ [envVariable] }
        else project
      some ⟨mapInsert c.projectCache name project'⟩

/-! ## Cache aggregate, filesystem and path resolution -/

/-- Embedding of `Cache`: one instance of each typed store. -/
structure Cache where
  FileCache : FileCache
  OrbCache : OrbCache
  DockerCache : DockerCache
  ContextCache : ContextCache
  ProjectCache : ProjectCache
deriving DecidableEq, Repr

/-- Embedding of `CreateCache` / `Cache.init`: every store starts with an
empty backing map. -/
def CreateCache : Cache :=
  ⟨⟨[]⟩, ⟨[]⟩, ⟨[]⟩, ⟨[]⟩, ⟨[]⟩⟩

/-- The filesystem visible to `RemoveOrbFiles`: the list of existing
paths. -/
abbrev FileSystem := List String

/-- Embedding of the `os.Stat(p)` success test: `p` exists. -/
def osStat (fs : FileSystem) (p : String) : Bool :=
  fs.contains p

/-- Embedding of `os.Remove(p)`: `p` no longer exists afterwards. -/
def osRemove (fs : FileSystem) (p : String) : FileSystem :=
  fs.filter (fun q => q ≠ p)

/-- The loop body of `Cache.RemoveOrbFiles`: if `os.Stat` succeeds on the
orb's `RemoteInfo.FilePath`, `os.Remove` it (the removal error is
ignored); otherwise do nothing. -/
def removeOrbFilesStep (fs : FileSystem) (e : String × OrbInfo) :
    FileSystem :=
  if osStat fs e.2.RemoteInfo.FilePath then
    osRemove fs e.2.RemoteInfo.FilePath
  else fs

/-- Embedding of `Cache.RemoveOrbFiles`: under the OrbCache and FileCache
locks, run the stat-and-remove loop body over every orb entry. -/
def Cache.RemoveOrbFiles (cache : Cache) (fs : FileSystem) : FileSystem :=
  cache.OrbCache.orbsCache.foldl removeOrbFilesStep fs

/-- Embedding of `Cache.ClearHostData`: `RemoveOrbFiles` then
`OrbCache.RemoveOrbs`. -/
def Cache.ClearHostData (cache : Cache) (fs : FileSystem) :
    Cache × FileSystem :=
  ({ cache with OrbCache := cache.OrbCache.RemoveOrbs },
    cache.RemoveOrbFiles fs)

/-- Embedding of `path.Join` on two clean, nonempty, relative-safe
fragments (the only way the source uses it): a single `/` separator. -/
def pathJoin (a b : String) : String := a ++ "/" ++ b

/-- Modelled from the spec: the directory-resolution environment of the
`xdg` collaborator — the OS-standard per-user cache directory (`none` when
it cannot be determined) and the home directory. -/
structure XdgEnv where
  cacheHome : Option String
  home : String

/-- Modelled from the spec: `xdg.CacheFile(rel)` resolves `rel` under the
OS-standard per-user cache directory, and errors (here `none`) when that
directory cannot be determined. -/
def xdgCacheFile (env : XdgEnv) (rel : String) : Option String :=
  env.cacheHome.map (fun root => pathJoin root rel)

/-- Embedding of `GetOrbCacheFSPath`: joins
`cci/orbs/.circleci/<orbYaml>.yml`, resolves it with `xdg.CacheFile`, and
on error falls back to `<home>/.cache/<file>`. -/
def GetOrbCacheFSPath (env : XdgEnv) (orbYaml : String) : String :=
  let file :=
    pathJoin (pathJoin (pathJoin "cci" "orbs") ".circleci") (orbYaml ++ ".yml")
  match xdgCacheFile env file with
  | some filePath => filePath
  | none => pathJoin (pathJoin env.home ".cache") file

/-- Splits a character list at every `/` (helper for `pathSegments`). -/
def splitCharsOnSlash : List Char → List (List Char)
  | [] => [[]]
  | c :: rest =>
      match splitCharsOnSlash rest with
      | [] => []
      | seg :: segs =>
          if c = '/' then [] :: seg :: segs else (c :: seg) :: segs

/-- The `/`-separated segments of a path. -/
def pathSegments (p : String) : List String :=
  (splitCharsOnSlash p.data).map (fun cs => String.mk cs)

/-! ## Reference-semantics model of `GetFiles`

Go maps are reference types: a struct field of map type is a handle to a
shared backing store, and returning it hands the caller that same handle.
To settle the snapshot contract of `GetFiles` (and of `GetAllContext` /
`GetAllProjects`, which return their backing maps the same way) this
indirection is made explicit: a heap assigns map contents to handles, the
store's `fileCache` field holds a handle, and `GetFiles` returns that
handle itself — the source performs no copy. -/

/-- A heap of Go map values: map contents indexed by handle. -/
structure MapHeap where
  contents : Nat → List (String × TextDocumentItem)

/-- The `FileCache` struct under reference semantics: its `fileCache`
field is a map handle into the heap. -/
structure FileCacheRef where
  fileCache : Nat

/-- Embedding of `FileCache.GetFiles`: `return c.fileCache` — the live map
handle, no copy of the contents. -/
def FileCacheRef.GetFiles (c : FileCacheRef) : Nat := c.fileCache

/-- A caller's map assignment `m[k] = v` performed through a handle:
mutates the heap cell the handle designates. -/
def MapHeap.write (h : MapHeap) (handle : Nat) (k : String)
    (v : TextDocumentItem) : MapHeap :=
  ⟨fun a => if a = handle then mapInsert (h.contents a) k v else h.contents a⟩

/-- The store's contents: the heap cell designated by the store's own
handle. -/
def FileCacheRef.storeContents (c : FileCacheRef) (h : MapHeap) :
    List (String × TextDocumentItem) :=
  h.contents c.fileCache

/-! ## Claims -/

/-- **C1** — The claim requires `GetFiles` (and the other `GetAll`
operations, which return their backing maps identically) to return a
defensive snapshot, so that mutating the returned mapping leaves the
store's contents unchanged.  The source returns the live backing map: at a
store whose map handle holds one document, a caller's write through the
mapping returned by `GetFiles` changes the store's contents — the code
contradicts the contract the spec states. -/
theorem GetFiles_returns_live_map :
    FileCacheRef.storeContents ⟨0⟩
        (MapHeap.write
          ⟨fun _ => [("file:///a.yml", ⟨"file:///a.yml", "yaml", 1, "a"⟩)]⟩
          (FileCacheRef.GetFiles ⟨0⟩) "file:///b.yml"
          ⟨"file:///b.yml", "yaml", 1, "b"⟩)
      ≠ FileCacheRef.storeContents ⟨0⟩
          ⟨fun _ => [("file:///a.yml", ⟨"file:///a.yml", "yaml", 1, "a"⟩)]⟩ := by
  decide

/-- **C2** — `Set(k, v)` stores `v` under `k` replacing any existing
entry, returns the stored value with no error; an immediately following
`Get(k)` returns `v`; every other key is unchanged.  Shown for
`FileCache.SetFile`/`GetFile` (keyed by the document's URI) and
`OrbCache.SetOrb`/`GetOrb`. -/
theorem set_get_roundtrip (fc : FileCache) (oc : OrbCache)
    (file : TextDocumentItem) (orb : OrbInfo) (orbID k : String) :
    ((fc.SetFile file).1 = file ∧
      (fc.SetFile file).2.GetFile file.URI = some file ∧
      (k ≠ file.URI → (fc.SetFile file).2.GetFile k = fc.GetFile k)) ∧
    ((oc.SetOrb orb orbID).1 = orb ∧
      (oc.SetOrb orb orbID).2.GetOrb orbID = some orb ∧
      (k ≠ orbID → (oc.SetOrb orb orbID).2.GetOrb k = oc.GetOrb k)) := by
  refine ⟨⟨rfl, ?_, ?_⟩, rfl, ?_, ?_⟩
  · exact mapLookup_mapInsert_self _ _ _
  · exact fun h => mapLookup_mapInsert_ne _ _ _ _ h
  · exact mapLookup_mapInsert_self _ _ _
  · exact fun h => mapLookup_mapInsert_ne _ _ _ _ h

/-- Witness for C2: a concrete set/get roundtrip with the side conditions
discharged. -/
theorem set_get_roundtrip_witness :
    (((FileCache.mk []).SetFile ⟨"file:///a.yml", "yaml", 1, "x"⟩).2.GetFile
        "file:///a.yml" = some ⟨"file:///a.yml", "yaml", 1, "x"⟩) ∧
    (((FileCache.mk []).SetFile ⟨"file:///a.yml", "yaml", 1, "x"⟩).2.GetFile
        "file:///b.yml" = (FileCache.mk []).GetFile "file:///b.yml") ∧
    (((OrbCache.mk []).SetOrb ⟨⟨"/tmp/o.yml"⟩, ⟨""⟩⟩ "circleci/node").2.GetOrb
        "circleci/node" = some ⟨⟨"/tmp/o.yml"⟩, ⟨""⟩⟩) := by
  have h := set_get_roundtrip (FileCache.mk []) (OrbCache.mk [])
    ⟨"file:///a.yml", "yaml", 1, "x"⟩ ⟨⟨"/tmp/o.yml"⟩, ⟨""⟩⟩
    "circleci/node" "file:///b.yml"
  exact ⟨h.1.2.1, h.1.2.2 (by decide), h.2.2.1⟩

/-- **C8** — `Remove(k)` deletes the entry for `k` if present so a
following `Get(k)` returns absent; when `k` is absent it is a no-op
leaving the store unchanged with no error; other keys are untouched.
Shown for `FileCache.RemoveFile`, `OrbCache.RemoveOrb` and
`DockerCache.Remove`. -/
theorem remove_deletes_and_absent_noop (fc : FileCache) (oc : OrbCache)
    (dc : DockerCache) (k k' : String) :
    ((fc.RemoveFile k).GetFile k = none ∧
      (fc.GetFile k = none → fc.RemoveFile k = fc) ∧
      (k' ≠ k → (fc.RemoveFile k).GetFile k' = fc.GetFile k')) ∧
    ((oc.RemoveOrb k).GetOrb k = none ∧
      (oc.GetOrb k = none → oc.RemoveOrb k = oc) ∧
      (k' ≠ k → (oc.RemoveOrb k).GetOrb k' = oc.GetOrb k')) ∧
    ((dc.Remove k).Get k = none ∧
      (dc.Get k = none → dc.Remove k = dc) ∧
      (k' ≠ k → (dc.Remove k).Get k' = dc.Get k')) := by
  refine ⟨⟨?_, ?_, ?_⟩, ⟨?_, ?_, ?_⟩, ?_, ?_, ?_⟩
  · exact mapLookup_mapDelete_self _ _
  · exact fun h => congrArg FileCache.mk (mapDelete_of_lookup_none _ _ h)
  · exact fun h => mapLookup_mapDelete_ne _ _ _ h
  · exact mapLookup_mapDelete_self _ _
  · exact fun h => congrArg OrbCache.mk (mapDelete_of_lookup_none _ _ h)
  · exact fun h => mapLookup_mapDelete_ne _ _ _ h
  · exact mapLookup_mapDelete_self _ _
  · exact fun h => congrArg DockerCache.mk (mapDelete_of_lookup_none _ _ h)
  · exact fun h => mapLookup_mapDelete_ne _ _ _ h

/-- Witness for C8: a concrete present-key deletion, a concrete absent-key
no-op, and a concrete untouched other key. -/
theorem remove_deletes_and_absent_noop_witness :
    ((OrbCache.mk [("circleci/node", ⟨⟨"/tmp/o.yml"⟩, ⟨""⟩⟩)]).RemoveOrb
        "circleci/node").GetOrb "circleci/node" = none ∧
    (FileCache.mk []).RemoveFile "file:///a.yml" = FileCache.mk [] ∧
    ((DockerCache.mk [("img", ⟨true, true⟩)]).Remove "other").Get "img" =
      (DockerCache.mk [("img", ⟨true, true⟩)]).Get "img" := by
  have h₁ := remove_deletes_and_absent_noop (FileCache.mk [])
    (OrbCache.mk [("circleci/node", ⟨⟨"/tmp/o.yml"⟩, ⟨""⟩⟩)])
    (DockerCache.mk [("img", ⟨true, true⟩)]) "circleci/node" "img"
  have h₂ := remove_deletes_and_absent_noop (FileCache.mk [])
    (OrbCache.mk []) (DockerCache.mk [("img", ⟨true, true⟩)])
    "file:///a.yml" "img"
  have h₃ := remove_deletes_and_absent_noop (FileCache.mk [])
    (OrbCache.mk []) (DockerCache.mk [("img", ⟨true, true⟩)]) "other" "img"
  exact ⟨h₁.2.1.1, h₂.1.2.1 rfl, h₃.2.2.2.2 (by decide)⟩

/-- **C4** — When a record exists for `orbID` (`HasOrb` true),
`UpdateOrbParsedAttributes orbID attrs` returns `attrs`, replaces exactly
the parsed-attribute field of that record (its remote metadata is kept)
and leaves every other entry unchanged; the operation succeeds exactly
when the record exists — on a missing key the source dereferences a `nil`
pointer, the unchecked fault embedded as `none`. -/
theorem updateOrbParsedAttributes_spec (c : OrbCache) (orbID : String)
    (attrs : OrbParsedAttributes) :
    (∀ orb, c.GetOrb orbID = some orb →
      ∃ c', c.UpdateOrbParsedAttributes orbID attrs = some (attrs, c') ∧
        c'.GetOrb orbID = some ⟨orb.RemoteInfo, attrs⟩ ∧
        ∀ k, k ≠ orbID → c'.GetOrb k = c.GetOrb k) ∧
    (c.HasOrb orbID = true ↔
      (c.UpdateOrbParsedAttributes orbID attrs).isSome = true) := by
  constructor
  · intro orb h
    rw [OrbCache.GetOrb] at h
    refine ⟨⟨mapInsert c.orbsCache orbID ⟨orb.RemoteInfo, attrs⟩⟩, ?_, ?_, ?_⟩
    · rw [OrbCache.UpdateOrbParsedAttributes, h]
    · exact mapLookup_mapInsert_self _ _ _
    · exact fun k hk => mapLookup_mapInsert_ne _ _ _ _ hk
  · rw [OrbCache.HasOrb, OrbCache.UpdateOrbParsedAttributes]
    cases mapLookup c.orbsCache orbID <;> simp

/-- Witness for C4: updating the parsed attributes of a concretely present
orb record. -/
theorem updateOrbParsedAttributes_spec_witness :
    ∃ c', (OrbCache.mk [("circleci/node", ⟨⟨"/tmp/o.yml"⟩, ⟨"old"⟩⟩)]).UpdateOrbParsedAttributes
        "circleci/node" ⟨"new"⟩ = some (⟨"new"⟩, c') ∧
      c'.GetOrb "circleci/node" = some ⟨⟨"/tmp/o.yml"⟩, ⟨"new"⟩⟩ ∧
      ∀ k, k ≠ "circleci/node" → c'.GetOrb k =
        (OrbCache.mk [("circleci/node", ⟨⟨"/tmp/o.yml"⟩, ⟨"old"⟩⟩)]).GetOrb k :=
  (updateOrbParsedAttributes_spec
      (OrbCache.mk [("circleci/node", ⟨⟨"/tmp/o.yml"⟩, ⟨"old"⟩⟩)])
      "circleci/node" ⟨"new"⟩).1 ⟨⟨"/tmp/o.yml"⟩, ⟨"old"⟩⟩ (by decide)

/-- **C9** — `AddEnvVariableToContext`/`AddEnvVariableToProject` fault
(nil-pointer dereference of the record read from the map, `none` in the
embedding) exactly when no record exists for `name`: they neither create a
record nor act as a no-op nor return a defined error on a missing key, and
under the existence precondition the faulting branch is unreachable. -/
theorem addEnvVariable_requires_existing_record (cc : ContextCache)
    (pc : ProjectCache) (name v : String) :
    (cc.AddEnvVariableToContext name v = none ↔ cc.GetContext name = none) ∧
    (pc.AddEnvVariableToProject name v = none ↔ pc.GetProject name = none) := by
  constructor
  · rw [ContextCache.AddEnvVariableToContext, ContextCache.GetContext]
    cases mapLookup cc.contextCache name <;> simp
  · rw [ProjectCache.AddEnvVariableToProject, ProjectCache.GetProject]
    cases mapLookup pc.projectCache name <;> simp

/-- Witness for C9: a missing context record faults, a present project
record does not. -/
theorem addEnvVariable_requires_existing_record_witness :
    (ContextCache.mk []).AddEnvVariableToContext "team" "VAR" = none ∧
    (ProjectCache.mk [("team", ⟨"team", []⟩)]).AddEnvVariableToProject
        "team" "VAR" ≠ none := by
  have h := addEnvVariable_requires_existing_record (ContextCache.mk [])
    (ProjectCache.mk [("team", ⟨"team", []⟩)]) "team" "VAR"
  exact ⟨h.1.mpr rfl, fun hn => absurd (h.2.mp hn) (by decide)⟩

/-- `FindInArray arr x` is negative exactly when `x` does not occur in
`arr`: the only way the source consumes it. -/
theorem FindInArray_neg_iff (arr : List String) (x : String) :
    FindInArray arr x < 0 ↔ ¬ x ∈ arr := by
  induction arr with
  | nil => simp [FindInArray]
  | cons a rest ih =>
      by_cases h : a = x
      · subst h
        simp [FindInArray]
      · rw [FindInArray]
        simp only [if_neg h]
        by_cases hr : FindInArray rest x < 0
        · rw [if_pos hr]
          have hx : ¬ x ∈ rest := ih.mp hr
          have hxa : ¬ x = a := fun hh => h hh.symm
          constructor
          · intro _
            simp [List.mem_cons, hx, hxa]
          · intro _
            decide
        · rw [if_neg hr]
          have hx : x ∈ rest := by
            by_contra hc
            exact hr (ih.mpr hc)
          constructor
          · intro hlt
            omega
          · intro hc
            exact absurd (List.mem_cons_of_mem a hx) hc

/-- **C6** — On a store holding a duplicate-free record for `name`,
`AddEnvVariable(name, v)` is idempotent: the first call succeeds, the
second call succeeds and changes nothing, and the resulting record's
variable list contains `v` exactly once.  Shown for
`AddEnvVariableToContext` and `AddEnvVariableToProject`. -/
theorem addEnvVariable_idempotent (cc : ContextCache) (pc : ProjectCache)
    (name v : String) (ctx : Context) (project : Project)
    (hc : cc.GetContext name = some ctx) (hcnd : ctx.envVariables.Nodup)
    (hp : pc.GetProject name = some project)
    (hpnd : project.EnvVariables.Nodup) :
    (∃ cc', cc.AddEnvVariableToContext name v = some cc' ∧
      cc'.AddEnvVariableToContext name v = some cc' ∧
      ∃ ctx', cc'.GetContext name = some ctx' ∧
        ctx'.envVariables.count v = 1) ∧
    (∃ pc', pc.AddEnvVariableToProject name v = some pc' ∧
      pc'.AddEnvVariableToProject name v = some pc' ∧
      ∃ project', pc'.GetProject name = some project' ∧
        project'.EnvVariables.count v = 1) := by
  rw [ContextCache.GetContext] at hc
  rw [ProjectCache.GetProject] at hp
  constructor
  · by_cases hv : v ∈ ctx.envVariables
    · have hfind : ¬ FindInArray ctx.envVariables v < 0 := by
        rw [FindInArray_neg_iff]
        exact fun hn => hn hv
      have hins : mapInsert cc.contextCache name ctx = cc.contextCache :=
        mapInsert_of_lookup_eq _ _ _ hc
      have h1 : cc.AddEnvVariableToContext name v = some cc := by
        rw [ContextCache.AddEnvVariableToContext, hc]
        simp only [if_neg hfind]
        rw [hins]
      exact ⟨cc, h1, h1, ctx, hc, List.count_eq_one_of_mem hcnd hv⟩
    · have hfind : FindInArray ctx.envVariables v < 0 :=
        (FindInArray_neg_iff _ _).mpr hv
      have h1 : cc.AddEnvVariableToContext name v =
          some ⟨mapInsert cc.contextCache name
            { ctx with envVariables := ctx.envVariables ++ [v] }⟩ := by
        rw [ContextCache.AddEnvVariableToContext, hc]
        simp only [if_pos hfind]
      have hlook : mapLookup (mapInsert cc.contextCache name
            { ctx with envVariables := ctx.envVariables ++ [v] }) name =
          some { ctx with envVariables := ctx.envVariables ++ [v] } :=
        mapLookup_mapInsert_self _ _ _
      have hmem : v ∈ ctx.envVariables ++ [v] :=
        List.mem_append_right _ (List.mem_singleton.mpr rfl)
      have hfind2 : ¬ FindInArray (ctx.envVariables ++ [v]) v < 0 := by
        rw [FindInArray_neg_iff]
        exact fun hn => hn hmem
      have h2 : ContextCache.AddEnvVariableToContext
          ⟨mapInsert cc.contextCache name
            { ctx with envVariables := ctx.envVariables ++ [v] }⟩ name v =
          some ⟨mapInsert cc.contextCache name
            { ctx with envVariables := ctx.envVariables ++ [v] }⟩ := by
        rw [ContextCache.AddEnvVariableToContext]
        simp only [hlook, if_neg hfind2]
        rw [mapInsert_of_lookup_eq _ _ _ hlook]
      refine ⟨_, h1, h2, _, hlook, ?_⟩
      simp [List.count_append, List.count_eq_zero.mpr hv]
  · by_cases hv : v ∈ project.EnvVariables
    · have hfind : ¬ FindInArray project.EnvVariables v < 0 := by
        rw [FindInArray_neg_iff]
        exact fun hn => hn hv
      have hins : mapInsert pc.projectCache name project = pc.projectCache :=
        mapInsert_of_lookup_eq _ _ _ hp
      have h1 : pc.AddEnvVariableToProject name v = some pc := by
        rw [ProjectCache.AddEnvVariableToProject, hp]
        simp only [if_neg hfind]
        rw [hins]
      exact ⟨pc, h1, h1, project, hp, List.count_eq_one_of_mem hpnd hv⟩
    · have hfind : FindInArray project.EnvVariables v < 0 :=
        (FindInArray_neg_iff _ _).mpr hv
      have h1 : pc.AddEnvVariableToProject name v =
          some ⟨mapInsert pc.projectCache name
            { project with EnvVariables := project.EnvVariables ++ [v] }⟩ := by
        rw [ProjectCache.AddEnvVariableToProject, hp]
        simp only [if_pos hfind]
      have hlook : mapLookup (mapInsert pc.projectCache name
            { project with EnvVariables := project.EnvVariables ++ [v] }) name =
          some { project with EnvVariables := project.EnvVariables ++ [v] } :=
        mapLookup_mapInsert_self _ _ _
      have hmem : v ∈ project.EnvVariables ++ [v] :=
        List.mem_append_right _ (List.mem_singleton.mpr rfl)
      have hfind2 : ¬ FindInArray (project.EnvVariables ++ [v]) v < 0 := by
        rw [FindInArray_neg_iff]
        exact fun hn => hn hmem
      have h2 : ProjectCache.AddEnvVariableToProject
          ⟨mapInsert pc.projectCache name
            { project with EnvVariables := project.EnvVariables ++ [v] }⟩ name v =
          some ⟨mapInsert pc.projectCache name
            { project with EnvVariables := project.EnvVariables ++ [v] }⟩ := by
        rw [ProjectCache.AddEnvVariableToProject]
        simp only [hlook, if_neg hfind2]
        rw [mapInsert_of_lookup_eq _ _ _ hlook]
      refine ⟨_, h1, h2, _, hlook, ?_⟩
      simp [List.count_append, List.count_eq_zero.mpr hv]

/-- Witness for C6: adding `"VAR"` twice to a concrete context (where it
is new) and a concrete project (where it is already present). -/
theorem addEnvVariable_idempotent_witness :
    (∃ cc', (ContextCache.mk [("team", ⟨"team", ["OTHER"]⟩)]).AddEnvVariableToContext
        "team" "VAR" = some cc' ∧
      cc'.AddEnvVariableToContext "team" "VAR" = some cc' ∧
      ∃ ctx', cc'.GetContext "team" = some ctx' ∧
        ctx'.envVariables.count "VAR" = 1) ∧
    (∃ pc', (ProjectCache.mk [("team", ⟨"team", ["VAR"]⟩)]).AddEnvVariableToProject
        "team" "VAR" = some pc' ∧
      pc'.AddEnvVariableToProject "team" "VAR" = some pc' ∧
      ∃ project', pc'.GetProject "team" = some project' ∧
        project'.EnvVariables.count "VAR" = 1) :=
  addEnvVariable_idempotent (ContextCache.mk [("team", ⟨"team", ["OTHER"]⟩)])
    (ProjectCache.mk [("team", ⟨"team", ["VAR"]⟩)]) "team" "VAR"
    ⟨"team", ["OTHER"]⟩ ⟨"team", ["VAR"]⟩ (by decide) (by decide)
    (by decide) (by decide)

theorem mem_mapInsert {V : Type} (m : List (String × V)) (k : String)
    (v : V) (e : String × V) (h : e ∈ mapInsert m k v) :
    e ∈ m ∨ e = (k, v) := by
  induction m with
  | nil =>
      simp [mapInsert] at h
      exact Or.inr h
  | cons p rest ih =>
      obtain ⟨k₀, v₀⟩ := p
      by_cases h₀ : k₀ = k
      · simp [mapInsert, h₀] at h
        cases h with
        | inl h => exact Or.inr (by simp [h])
        | inr h => exact Or.inl (List.mem_cons_of_mem _ h)
      · simp only [mapInsert, if_neg h₀, List.mem_cons] at h
        cases h with
        | inl h => exact Or.inl (by simp [h])
        | inr h =>
            cases ih h with
            | inl h => exact Or.inl (List.mem_cons_of_mem _ h)
            | inr h => exact Or.inr h

/-- **C5 counterexample** — the claim fails as stated: `SetContext` and
`SetProject` store the caller's record verbatim, so setting a record whose
variable list is `["A", "A"]` on the empty store reaches a state whose
stored record has a duplicate variable list. -/
theorem set_stores_duplicate_env_list :
    (((ContextCache.mk []).SetContext ⟨"team", ["A", "A"]⟩).2.GetContext
        "team" = some ⟨"team", ["A", "A"]⟩) ∧
    (((ProjectCache.mk []).SetProject ⟨"gh/org/repo", ["A", "A"]⟩).2.GetProject
        "gh/org/repo" = some ⟨"gh/org/repo", ["A", "A"]⟩) ∧
    ¬ (["A", "A"] : List String).Nodup := by
  decide

/-- **C5 (amended)** — the no-duplicate invariant on every stored record's
variable list is preserved by `AddEnvVariableToContext` /
`AddEnvVariableToProject` unconditionally, and by `SetContext` /
`SetProject` provided the inserted record's own list is duplicate-free;
`Set` itself does not deduplicate, so the invariant holds in the states
reachable using duplicate-free `Set` inputs, not in all reachable
states. -/
theorem env_var_nodup_invariant (cc : ContextCache) (pc : ProjectCache)
    (ctx : Context) (project : Project) (name v : String)
    (hcc : ∀ e ∈ cc.contextCache, (Prod.snd e).envVariables.Nodup)
    (hpc : ∀ e ∈ pc.projectCache, (Prod.snd e).EnvVariables.Nodup) :
    (ctx.envVariables.Nodup →
      ∀ e ∈ ((cc.SetContext ctx).2).contextCache,
        (Prod.snd e).envVariables.Nodup) ∧
    (∀ cc', cc.AddEnvVariableToContext name v = some cc' →
      ∀ e ∈ cc'.contextCache, (Prod.snd e).envVariables.Nodup) ∧
    (project.EnvVariables.Nodup →
      ∀ e ∈ ((pc.SetProject project).2).projectCache,
        (Prod.snd e).EnvVariables.Nodup) ∧
    (∀ pc', pc.AddEnvVariableToProject name v = some pc' →
      ∀ e ∈ pc'.projectCache, (Prod.snd e).EnvVariables.Nodup) := by
  refine ⟨?_, ?_, ?_, ?_⟩
  · intro hnd e he
    cases mem_mapInsert _ _ _ _ he with
    | inl h => exact hcc e h
    | inr h => simpa [h] using hnd
  · intro cc' hadd e he
    cases hl : mapLookup cc.contextCache name with
    | none =>
        rw [ContextCache.AddEnvVariableToContext, hl] at hadd
        simp at hadd
    | some ctx₀ =>
        rw [ContextCache.AddEnvVariableToContext, hl] at hadd
        have hnd₀ : ctx₀.envVariables.Nodup :=
          hcc _ (mem_of_mapLookup_eq_some _ _ _ hl)
        cases Option.some.inj hadd
        cases mem_mapInsert _ _ _ _ he with
        | inl h => exact hcc e h
        | inr h =>
            subst h
            by_cases hf : FindInArray ctx₀.envVariables v < 0
            · have hv : ¬ v ∈ ctx₀.envVariables :=
                (FindInArray_neg_iff _ _).mp hf
              simp only [if_pos hf]
              exact hnd₀.append (List.nodup_singleton v)
                (List.disjoint_singleton.mpr hv)
            · simp only [if_neg hf]
              exact hnd₀
  · intro hnd e he
    cases mem_mapInsert _ _ _ _ he with
    | inl h => exact hpc e h
    | inr h => simpa [h] using hnd
  · intro pc' hadd e he
    cases hl : mapLookup pc.projectCache name with
    | none =>
        rw [ProjectCache.AddEnvVariableToProject, hl] at hadd
        simp at hadd
    | some project₀ =>
        rw [ProjectCache.AddEnvVariableToProject, hl] at hadd
        have hnd₀ : project₀.EnvVariables.Nodup :=
          hpc _ (mem_of_mapLookup_eq_some _ _ _ hl)
        cases Option.some.inj hadd
        cases mem_mapInsert _ _ _ _ he with
        | inl h => exact hpc e h
        | inr h =>
            subst h
            by_cases hf : FindInArray project₀.EnvVariables v < 0
            · have hv : ¬ v ∈ project₀.EnvVariables :=
                (FindInArray_neg_iff _ _).mp hf
              simp only [if_pos hf]
              exact hnd₀.append (List.nodup_singleton v)
                (List.disjoint_singleton.mpr hv)
            · simp only [if_neg hf]
              exact hnd₀

/-- Witness for the amended C5: a duplicate-free `SetContext` and a
successful `AddEnvVariableToContext` on concrete stores keep every stored
list duplicate-free. -/
theorem env_var_nodup_invariant_witness :
    (∀ e ∈ (((ContextCache.mk [("team", ⟨"team", ["A"]⟩)]).SetContext
        ⟨"other", ["B"]⟩).2).contextCache,
      (Prod.snd e).envVariables.Nodup) ∧
    (∀ e ∈ (ContextCache.mk
        [("team", ⟨"team", ["A", "VAR"]⟩)]).contextCache,
      (Prod.snd e).envVariables.Nodup) := by
  have h := env_var_nodup_invariant
    (ContextCache.mk [("team", ⟨"team", ["A"]⟩)]) (ProjectCache.mk [])
    ⟨"other", ["B"]⟩ ⟨"p", []⟩ "team" "VAR" (by decide) (by decide)
  exact ⟨h.1 (by decide),
    h.2.1 (ContextCache.mk [("team", ⟨"team", ["A", "VAR"]⟩)]) (by decide)⟩

theorem not_mem_removeOrbFilesStep (fs : FileSystem) (e : String × OrbInfo)
    (p : String) (h : ¬ p ∈ fs) : ¬ p ∈ removeOrbFilesStep fs e := by
  rw [removeOrbFilesStep]
  by_cases hs : osStat fs e.2.RemoteInfo.FilePath = true
  · rw [if_pos hs]
    intro hc
    exact h (List.mem_of_mem_filter hc)
  · rw [if_neg hs]
    exact h

theorem not_mem_foldl_removeOrbFilesStep (l : List (String × OrbInfo))
    (fs : FileSystem) (p : String) (h : ¬ p ∈ fs) :
    ¬ p ∈ l.foldl removeOrbFilesStep fs := by
  induction l generalizing fs with
  | nil => exact h
  | cons e rest ih => exact ih _ (not_mem_removeOrbFilesStep fs e p h)

theorem removeOrbFilesStep_removes (fs : FileSystem) (e : String × OrbInfo) :
    ¬ e.2.RemoteInfo.FilePath ∈ removeOrbFilesStep fs e := by
  rw [removeOrbFilesStep]
  by_cases hs : osStat fs e.2.RemoteInfo.FilePath = true
  · rw [if_pos hs]
    intro hc
    rw [osRemove] at hc
    have hq := List.of_mem_filter hc
    simp at hq
  · rw [if_neg hs]
    intro hc
    rw [osStat] at hs
    simp at hs
    exact hs hc

theorem mem_entry_path_not_in_foldl (l : List (String × OrbInfo))
    (e : String × OrbInfo) :
    ∀ fs : FileSystem, e ∈ l →
      ¬ e.2.RemoteInfo.FilePath ∈ l.foldl removeOrbFilesStep fs := by
  induction l with
  | nil =>
      intro fs he
      cases he
  | cons e₀ rest ih =>
      intro fs he
      rw [List.foldl_cons]
      cases List.mem_cons.mp he with
      | inl h =>
          subst h
          exact not_mem_foldl_removeOrbFilesStep rest (removeOrbFilesStep fs e)
            e.2.RemoteInfo.FilePath (removeOrbFilesStep_removes fs e)
      | inr h => exact ih _ h

theorem mem_foldl_mapDelete {V : Type} (l : List String)
    (m : List (String × V)) (e : String × V)
    (h : e ∈ l.foldl mapDelete m) : e ∈ m ∧ ¬ e.1 ∈ l := by
  induction l generalizing m with
  | nil => exact ⟨h, List.not_mem_nil _⟩
  | cons k₀ rest ih =>
      rw [List.foldl_cons] at h
      obtain ⟨h₁, h₂⟩ := ih (mapDelete m k₀) h
      obtain ⟨k, v⟩ := e
      obtain ⟨h₃, h₄⟩ := mem_mapDelete _ _ _ _ h₁
      refine ⟨h₃, ?_⟩
      simp only [List.mem_cons]
      intro hc
      cases hc with
      | inl hc => exact h₄ hc
      | inr hc => exact h₂ hc

/-- The source's `RemoveOrbs` loop (`for k := range { delete }`) leaves the
backing map empty. -/
theorem removeOrbs_empty (c : OrbCache) : c.RemoveOrbs = ⟨[]⟩ := by
  rw [OrbCache.RemoveOrbs]
  congr 1
  cases hr : (c.orbsCache.map Prod.fst).foldl mapDelete c.orbsCache with
  | nil => rfl
  | cons e rest =>
      exfalso
      have hmem : e ∈ (c.orbsCache.map Prod.fst).foldl mapDelete c.orbsCache := by
        rw [hr]
        exact List.mem_cons_self _ _
      obtain ⟨h₁, h₂⟩ := mem_foldl_mapDelete _ _ _ hmem
      exact h₂ (List.mem_map_of_mem Prod.fst h₁)

/-- **C3** — After `ClearHostData`: the recorded file path of every orb
entry that referred to an existing file no longer exists on the
filesystem; the OrbStore is empty — `GetOrb` returns absent for every id
and its key count is zero.  The operation is embedded as a total function:
an entry whose path does not exist takes the silent no-stat branch, the
call completes with no error to surface, and the OrbStore conclusions hold
unconditionally. -/
theorem clearHostData_spec (cache : Cache) (fs : FileSystem)
    (orbID : String) (orb : OrbInfo) :
    ((orbID, orb) ∈ cache.OrbCache.orbsCache →
      orb.RemoteInfo.FilePath ∈ fs →
      ¬ orb.RemoteInfo.FilePath ∈ (cache.ClearHostData fs).2) ∧
    (∀ id, (cache.ClearHostData fs).1.OrbCache.GetOrb id = none) ∧
    (cache.ClearHostData fs).1.OrbCache.orbsCache.length = 0 := by
  refine ⟨?_, ?_, ?_⟩
  · intro hmem _
    exact mem_entry_path_not_in_foldl _ _ fs hmem
  · intro id
    show OrbCache.GetOrb cache.OrbCache.RemoveOrbs id = none
    rw [removeOrbs_empty]
    rfl
  · show (OrbCache.RemoveOrbs cache.OrbCache).orbsCache.length = 0
    rw [removeOrbs_empty]
    rfl

/-- Witness for C3: a concrete cache holding one orb whose file exists and
one whose file does not; the existing file is gone afterwards, an
unrelated file survives, and the orb store is emptied. -/
theorem clearHostData_spec_witness :
    ¬ "/c/o1.yml" ∈ (Cache.ClearHostData
        ⟨⟨[]⟩, ⟨[("o1", ⟨⟨"/c/o1.yml"⟩, ⟨""⟩⟩),
          ("o2", ⟨⟨"/c/missing.yml"⟩, ⟨""⟩⟩)]⟩, ⟨[]⟩, ⟨[]⟩, ⟨[]⟩⟩
        ["/c/o1.yml", "/other"]).2 ∧
    (Cache.ClearHostData
        ⟨⟨[]⟩, ⟨[("o1", ⟨⟨"/c/o1.yml"⟩, ⟨""⟩⟩),
          ("o2", ⟨⟨"/c/missing.yml"⟩, ⟨""⟩⟩)]⟩, ⟨[]⟩, ⟨[]⟩, ⟨[]⟩⟩
        ["/c/o1.yml", "/other"]).1.OrbCache.orbsCache.length = 0 := by
  have h := clearHostData_spec
    ⟨⟨[]⟩, ⟨[("o1", ⟨⟨"/c/o1.yml"⟩, ⟨""⟩⟩),
      ("o2", ⟨⟨"/c/missing.yml"⟩, ⟨""⟩⟩)]⟩, ⟨[]⟩, ⟨[]⟩, ⟨[]⟩⟩
    ["/c/o1.yml", "/other"] "o1" ⟨⟨"/c/o1.yml"⟩, ⟨""⟩⟩
  exact ⟨h.1 (by decide) (by decide), h.2.2⟩

/-- **C7 counterexample** — the claim as stated fails: the path built by
`GetOrbCacheFSPath` ends in the four segments `cci`, `orbs`, `.circleci`,
`<orbName>.yml`, so its final *three* segments are not
`cci/orbs/.circleci/<orbName>.yml` (a four-segment suffix).  Shown for
`my-orb` in both resolution branches, together with the final *four*
segments being exactly that suffix. -/
theorem getOrbCacheFSPath_segments_counterexample :
    ((pathSegments (GetOrbCacheFSPath ⟨some "/root/.cache", "/root"⟩
        "my-orb")).reverse.take 3
      ≠ (pathSegments "cci/orbs/.circleci/my-orb.yml").reverse) ∧
    ((pathSegments (GetOrbCacheFSPath ⟨none, "/root"⟩
        "my-orb")).reverse.take 3
      ≠ (pathSegments "cci/orbs/.circleci/my-orb.yml").reverse) ∧
    ((pathSegments (GetOrbCacheFSPath ⟨some "/root/.cache", "/root"⟩
        "my-orb")).reverse.take 4
      = (pathSegments "cci/orbs/.circleci/my-orb.yml").reverse) ∧
    ((pathSegments (GetOrbCacheFSPath ⟨none, "/root"⟩
        "my-orb")).reverse.take 4
      = (pathSegments "cci/orbs/.circleci/my-orb.yml").reverse) := by
  decide

/-- **C7 (amended)** — in both cache-root resolution branches the resolver
returns a path of the form `<cache-root>/cci/orbs/.circleci/<orbName>.yml`
(final *four* segments `cci/orbs/.circleci/<orbName>.yml`), with
`<cache-root>` the OS-standard per-user cache directory when it can be
determined and `<home>/.cache` otherwise. -/
theorem getOrbCacheFSPath_form (env : XdgEnv) (orbYaml : String) :
    ∃ root, GetOrbCacheFSPath env orbYaml =
        root ++ "/" ++ ("cci/orbs/.circleci/" ++ (orbYaml ++ ".yml")) ∧
      (env.cacheHome = some root ∨
        (env.cacheHome = none ∧ root = env.home ++ "/" ++ ".cache")) := by
  obtain ⟨ch, home⟩ := env
  cases ch with
  | some r => exact ⟨r, rfl, Or.inl rfl⟩
  | none => exact ⟨home ++ "/" ++ ".cache", rfl, Or.inr ⟨rfl, rfl⟩⟩

/-- The serialization of N concurrent `SetFile` calls: the store's single
mutex makes each call's critical section atomic, so any interleaving
executes the calls in some sequential order; `SetFiles` applies one such
order. -/
def FileCache.SetFiles (c : FileCache) (order : List TextDocumentItem) :
    FileCache :=
  order.foldl (fun st f => (st.SetFile f).2) c

/-- The serialization of N concurrent `DockerCache.Add` calls, in the
given order. -/
def DockerCache.AddAll (c : DockerCache) (order : List (String × Bool)) :
    DockerCache :=
  order.foldl (fun st op => (st.Add op.1 op.2).2) c

theorem setFiles_append (c : FileCache) (l : List TextDocumentItem)
    (f : TextDocumentItem) :
    c.SetFiles (l ++ [f]) = ((c.SetFiles l).SetFile f).2 := by
  simp [FileCache.SetFiles, List.foldl_append]

theorem addAll_append (c : DockerCache) (l : List (String × Bool))
    (op : String × Bool) :
    c.AddAll (l ++ [op]) = ((c.AddAll l).Add op.1 op.2).2 := by
  simp [DockerCache.AddAll, List.foldl_append]

/-- **C10** — N `Set(k, vᵢ)` calls on one key under the store's single
exclusive lock serialize into some sequential order (each critical section
is atomic), modelled as an arbitrary nonempty order of the calls; after
all complete, `Get(k)` returns exactly the last value written in that
order — one of the vᵢ, never a corrupted value.  Shown for
`FileCache.SetFile` (keyed by the documents' shared URI `k`) and
`DockerCache.Add`. -/
theorem concurrent_sets_last_write_wins (c : FileCache) (dc : DockerCache)
    (k : String) (order : List TextDocumentItem) (bs : List Bool)
    (h : order ≠ []) (hb : bs ≠ []) (hk : ∀ f ∈ order, f.URI = k) :
    ((c.SetFiles order).GetFile k = some (order.getLast h) ∧
      order.getLast h ∈ order) ∧
    ((dc.AddAll (bs.map (fun b => (k, b)))).Get k =
        some ⟨true, bs.getLast hb⟩ ∧
      bs.getLast hb ∈ bs) := by
  constructor
  · obtain ⟨l, f, hcf⟩ := (List.eq_nil_or_concat order).resolve_left h
    rw [List.concat_eq_append] at hcf
    subst hcf
    have hf : f.URI = k := hk f (by simp)
    rw [setFiles_append, List.getLast_append]
    constructor
    · show mapLookup
        (mapInsert (FileCache.SetFiles c l).fileCache f.URI f) k = some f
      rw [hf]
      exact mapLookup_mapInsert_self _ _ _
    · simp
  · obtain ⟨l, b, hcb⟩ := (List.eq_nil_or_concat bs).resolve_left hb
    rw [List.concat_eq_append] at hcb
    subst hcb
    simp only [List.map_append, List.map_cons, List.map_nil]
    rw [addAll_append, List.getLast_append]
    constructor
    · show mapLookup
        (mapInsert (DockerCache.AddAll dc (l.map fun b => (k, b))).dockerCache
          k ⟨true, b⟩) k = some ⟨true, b⟩
      exact mapLookup_mapInsert_self _ _ _
    · simp

/-- Witness for C10: two serialized writes to one key in each store; the
read returns the later value. -/
theorem concurrent_sets_last_write_wins_witness :
    ((FileCache.mk []).SetFiles
        [⟨"file:///a.yml", "yaml", 1, "v1"⟩,
          ⟨"file:///a.yml", "yaml", 2, "v2"⟩]).GetFile "file:///a.yml" =
      some ⟨"file:///a.yml", "yaml", 2, "v2"⟩ ∧
    ((DockerCache.mk []).AddAll
        ([true, false].map (fun b => ("img", b)))).Get "img" =
      some ⟨true, false⟩ := by
  have h := concurrent_sets_last_write_wins (FileCache.mk [])
    (DockerCache.mk []) "file:///a.yml"
    [⟨"file:///a.yml", "yaml", 1, "v1"⟩, ⟨"file:///a.yml", "yaml", 2, "v2"⟩]
    [true, false] (by decide) (by decide) (by decide)
  have h2 := concurrent_sets_last_write_wins (FileCache.mk [])
    (DockerCache.mk []) "img"
    [⟨"img", "yaml", 1, "v1"⟩] [true, false] (by decide) (by decide)
    (by decide)
  exact ⟨h.1.1, h2.2.1⟩

end CacheSpec
